import Mathlib

/-!
Verification of the dynamic-buffer codec in `src/dynamicBuffer.ts`.

The file models the two exported operations, `setDynamicBuffer` (encoder) and
`getDynamicBuffer` (decoder), as pure Lean functions over `Nat` and `List Nat`.
JavaScript 32-bit integer wrap-around of the accumulator is modelled by an
explicit `% pow32`; only the low 22 bits of the accumulator are ever read back,
so the sign of the JS `Int32` never matters and the unsigned residue is a
faithful model.  The two `while` loops are modelled by structurally recursive
functions with an explicit fuel argument; each loop iteration removes at least
15 (resp. 8) held bits, so fuel equal to the current held-bit count is always
sufficient, and every lemma about the loops carries that fuel bound as a
hypothesis discharged at the call sites (which pass the held-bit count itself).
-/

/-- 2^32, the modulus of JavaScript 32-bit bitwise arithmetic. -/
def pow32 : Nat := 4294967296

/-- Word written by the encoder when the accumulator holds a final partial
group of `accBits` (1..14) bits: `((acc << (15 - accBits)) & 32767) | 32768`
(line 86 of the source). -/
def finalWord (acc accBits : Nat) : Nat :=
  (((acc <<< (15 - accBits)) % pow32) &&& 32767) ||| 32768

/-- Inner `while (accBits >= 15)` loop of `setDynamicBuffer` (lines 79-82):
`accBits -= 15; res[bytePos++] = ((acc >> accBits) & 32767) | 32768`.
The first argument is fuel; callers pass the held-bit count, which bounds the
iteration count.  Out-of-range writes on a `Uint16Array` are silently dropped,
exactly like `List.set` past the end of the list. -/
def encFlushArr (acc : Nat) : Nat → Nat → Nat → List Nat → Nat × Nat × List Nat
  | 0, accBits, bytePos, res => (accBits, bytePos, res)
  | fuel + 1, accBits, bytePos, res =>
    if 15 ≤ accBits then
      encFlushArr acc fuel (accBits - 15) (bytePos + 1)
        (res.set bytePos (((acc >>> (accBits - 15)) &&& 32767) ||| 32768))
    else (accBits, bytePos, res)

/-- Body of the `for` loop of `setDynamicBuffer` (lines 74-83) acting on the
state `(acc, accBits, bytePos, res)`:
`acc = (acc << 8) | byte; accBits += 8;` followed by the flush loop. -/
def encStepArr (st : Nat × Nat × Nat × List Nat) (b : Nat) : Nat × Nat × Nat × List Nat :=
  let acc := ((st.1 <<< 8) ||| b) % pow32
  (acc, encFlushArr acc (st.2.1 + 8) (st.2.1 + 8) st.2.2.1 st.2.2.2)

/-- Size of the `Uint16Array` allocated at line 64:
`Math.ceil((bufLen / 15) * 8) + 1`.  For every byte length (in particular all
lengths up to 20476) the double-precision evaluation is exact, because
`8*n/15` is an integer exactly when `15 ∣ n`, in which case `n/15` and the
product by 8 are computed exactly, and otherwise `8*n/15` is at distance at
least `1/15` from every integer, far above the rounding error; so the
allocation equals the integer `⌈8n/15⌉ + 1`. -/
def allocWords (n : Nat) : Nat := (8 * n + 14) / 15 + 1

/-- The full code-unit stream serialized by `setDynamicBuffer` (lines 64-92)
for a byte payload `p`: a `Uint16Array` of `allocWords` zero-initialized words
receives the length at index 0 (line 71), then the data loop writes from index
1, then the final partial word, if any, is written at the final `bytePos`
without incrementing it; the WHOLE array is then turned into a string
(line 91), one code unit per element, modelled as the resulting word list. -/
def setStream (p : List Nat) : List Nat :=
  let n := p.length
  let r := p.foldl encStepArr (0, 0, 1, (List.replicate (allocWords n) 0).set 0 n)
  if 0 < r.2.1 then r.2.2.2.set r.2.2.1 (finalWord r.1 r.2.1) else r.2.2.2

/-- List-building reformulation of the flush loop `encFlushArr`: instead of
writing into a preallocated array it returns the emitted words.  Proved to
agree with the array form below. -/
def encFlush (acc : Nat) : Nat → Nat → Nat × List Nat
  | 0, accBits => (accBits, [])
  | fuel + 1, accBits =>
    if 15 ≤ accBits then
      let r := encFlush acc fuel (accBits - 15)
      (r.1, (((acc >>> (accBits - 15)) &&& 32767) ||| 32768) :: r.2)
    else (accBits, [])

/-- List-building reformulation of `encStepArr` on the state
`(acc, accBits, emitted words)`. -/
def encStep (st : Nat × Nat × List Nat) (b : Nat) : Nat × Nat × List Nat :=
  let acc := ((st.1 <<< 8) ||| b) % pow32
  let r := encFlush acc (st.2.1 + 8) (st.2.1 + 8)
  (acc, r.1, st.2.2 ++ r.2)

/-- The encoder's data loop over the whole payload, list-building form. -/
def encLoop (p : List Nat) : Nat × Nat × List Nat := p.foldl encStep (0, 0, [])

/-- The payload words (everything after the length word) that the encoder
emits for payload `p`, list-building form. -/
def encWords (p : List Nat) : List Nat :=
  let r := encLoop p
  if 0 < r.2.1 then r.2.2 ++ [finalWord r.1 r.2.1] else r.2.2

/-- Line 131 of the decoder: `const code = str.charCodeAt(i) ^ 32768` — the
value actually fed into the bit accumulator for an input word `c`. -/
def decWordInput (c : Nat) : Nat := c ^^^ 32768

/-- Final partial byte of the decoder (line 143):
`(acc << (8 - accBits)) & 255`. -/
def decTailByte (acc accBits : Nat) : Nat := ((acc <<< (8 - accBits)) % pow32) &&& 255

/-- Inner `while (accBits >= 8)` loop of `getDynamicBuffer` (lines 135-139):
`if (bytePos >= res.byteLength) break; accBits -= 8;
buf[bytePos++] = (acc >> accBits) & 255`.  The byte writes are recorded as a
list of (position, value) pairs; first argument is fuel (callers pass the
held-bit count, which bounds the iteration count). -/
def decFlush (acc bufLen : Nat) : Nat → Nat → Nat → List (Nat × Nat) → Nat × Nat × List (Nat × Nat)
  | 0, accBits, bytePos, ws => (accBits, bytePos, ws)
  | fuel + 1, accBits, bytePos, ws =>
    if 8 ≤ accBits then
      if bufLen ≤ bytePos then (accBits, bytePos, ws)
      else
        decFlush acc bufLen fuel (accBits - 8) (bytePos + 1)
          (ws ++ [(bytePos, (acc >>> (accBits - 8)) &&& 255)])
    else (accBits, bytePos, ws)

/-- Body of the decoder's `for` loop (lines 130-140) on the state
`(acc, accBits, bytePos, writes)`. -/
def decStep (bufLen : Nat) (st : Nat × Nat × Nat × List (Nat × Nat)) (c : Nat) :
    Nat × Nat × Nat × List (Nat × Nat) :=
  let acc := ((st.1 <<< 15) ||| decWordInput c) % pow32
  (acc, decFlush acc bufLen (st.2.1 + 15) (st.2.1 + 15) st.2.2.1 st.2.2.2)

/-- The decoder's loop over all words after the length word. -/
def decLoop (bufLen : Nat) (codes : List Nat) : Nat × Nat × Nat × List (Nat × Nat) :=
  codes.foldl (decStep bufLen) (0, 0, 0, [])

/-- Declared output length: `str.charCodeAt(0)` (line 118).  On the empty
string `charCodeAt(0)` is NaN and `new ArrayBuffer(NaN)` has length 0. -/
def bufLenOf : List Nat → Nat
  | [] => 0
  | c :: _ => c

/-- All byte writes `getDynamicBuffer` performs into its output buffer for an
input string `s` (the loop writes, lines 135-139, plus the guarded final
partial-byte write, lines 142-144). -/
def decWrites : List Nat → List (Nat × Nat)
  | [] => []
  | bufLen :: rest =>
    let r := decLoop bufLen rest
    if 0 < r.2.1 ∧ r.2.2.1 < bufLen then r.2.2.2 ++ [(r.2.2.1, decTailByte r.1 r.2.1)]
    else r.2.2.2

/-- Replay a list of (position, value) writes on a buffer; writes past the end
are dropped, exactly as on a `Uint8Array`. -/
def applyWrites (buf : List Nat) (ws : List (Nat × Nat)) : List Nat :=
  ws.foldl (fun b pr => b.set pr.1 pr.2) buf

/-- The `ArrayBuffer` returned by `getDynamicBuffer` for an input string `s`
(zero-initialized buffer of the declared length, then all writes applied). -/
def getBytes (s : List Nat) : List Nat :=
  applyWrites (List.replicate (bufLenOf s) 0) (decWrites s)

/-- Big-endian numeric value of a byte sequence (each element < 256). -/
def byteVal (p : List Nat) : Nat := p.foldl (fun a b => a * 256 + b) 0

/-- Big-endian numeric value of a sequence of 15-bit groups. -/
def wordVal (ws : List Nat) : Nat := ws.foldl (fun a w => a * 32768 + w) 0

/-! ### Arithmetic helpers -/

theorem pow32_eq : pow32 = 2 ^ 32 := by norm_num [pow32]

theorem and_32767 (x : Nat) : x &&& 32767 = x % 32768 := by
  have h := Nat.and_pow_two_sub_one_eq_mod x 15
  norm_num at h
  exact h

theorem and_255 (x : Nat) : x &&& 255 = x % 256 := by
  have h := Nat.and_pow_two_sub_one_eq_mod x 8
  norm_num at h
  exact h

theorem shiftLeft_or_eq_add (a b k : Nat) (hb : b < 2 ^ k) :
    (a <<< k) ||| b = 2 ^ k * a + b := by
  rw [Nat.shiftLeft_eq, Nat.mul_comm a (2 ^ k)]
  exact (Nat.mul_add_lt_is_or hb a).symm

theorem xor_two_pow_of_lt {r k : Nat} (h : r < 2 ^ k) : r ^^^ 2 ^ k = r + 2 ^ k := by
  have hor : r + 2 ^ k = 2 ^ k * 1 + r := by ring
  rw [hor, Nat.mul_add_lt_is_or h 1, Nat.mul_one]
  apply Nat.eq_of_testBit_eq
  intro i
  rw [Nat.testBit_xor, Nat.testBit_or]
  by_cases hik : k = i
  · subst hik
    rw [Nat.testBit_lt_two_pow h, Nat.testBit_two_pow_self]
    decide
  · rw [Nat.testBit_two_pow_of_ne hik]
    cases r.testBit i <;> rfl

theorem add_two_pow_xor {r k : Nat} (h : r < 2 ^ k) : (r + 2 ^ k) ^^^ 2 ^ k = r := by
  rw [← xor_two_pow_of_lt h, Nat.xor_assoc, Nat.xor_self, Nat.xor_zero]

theorem mod_pow32_div_mod (x s t : Nat) (h : s + t ≤ 32) :
    x % pow32 / 2 ^ s % 2 ^ t = x / 2 ^ s % 2 ^ t := by
  have h32 : pow32 = 2 ^ s * 2 ^ (32 - s) := by
    rw [pow32_eq, ← pow_add]
    congr 1
    omega
  rw [h32, Nat.mod_mul_right_div_self]
  exact Nat.mod_mod_of_dvd _ (pow_dvd_pow 2 (by omega : t ≤ 32 - s))

theorem mod_pow32_mod_two_pow (x t : Nat) (h : t ≤ 32) : x % pow32 % 2 ^ t = x % 2 ^ t := by
  rw [pow32_eq]
  exact Nat.mod_mod_of_dvd x (pow_dvd_pow 2 h)

theorem mod_pow32_mul_add_mod (V k b : Nat) :
    (2 ^ k * (V % pow32) + b) % pow32 = (2 ^ k * V + b) % pow32 :=
  ((Nat.mod_modEq V pow32).mul_left (2 ^ k)).add_right b

/-! ### Values of byte and word sequences -/

theorem byteVal_append_singleton (xs : List Nat) (x : Nat) :
    byteVal (xs ++ [x]) = byteVal xs * 256 + x := by
  simp [byteVal]

theorem wordVal_append_singleton (xs : List Nat) (x : Nat) :
    wordVal (xs ++ [x]) = wordVal xs * 32768 + x := by
  simp [wordVal]

theorem byteVal_lt (p : List Nat) (hp : ∀ b ∈ p, b < 256) :
    byteVal p < 2 ^ (8 * p.length) := by
  induction p using List.reverseRecOn with
  | nil => simp [byteVal]
  | append_singleton q b ih =>
    have hq := ih fun x hx => hp x (List.mem_append_left _ hx)
    have hb : b < 256 := hp b (by simp)
    rw [byteVal_append_singleton]
    have h1 : byteVal q * 256 + b < (byteVal q + 1) * 256 := by omega
    have h2 : (byteVal q + 1) * 256 ≤ 2 ^ (8 * q.length) * 256 :=
      Nat.mul_le_mul_right _ hq
    have h3 : 2 ^ (8 * (q ++ [b]).length) = 2 ^ (8 * q.length) * 256 := by
      rw [List.length_append, List.length_singleton, Nat.mul_add, pow_add]
      norm_num
    omega

theorem wordVal_lt (ws : List Nat) (hw : ∀ w ∈ ws, w < 32768) :
    wordVal ws < 2 ^ (15 * ws.length) := by
  induction ws using List.reverseRecOn with
  | nil => simp [wordVal]
  | append_singleton q b ih =>
    have hq := ih fun x hx => hw x (List.mem_append_left _ hx)
    have hb : b < 32768 := hw b (by simp)
    rw [wordVal_append_singleton]
    have h1 : wordVal q * 32768 + b < (wordVal q + 1) * 32768 := by omega
    have h2 : (wordVal q + 1) * 32768 ≤ 2 ^ (15 * q.length) * 32768 :=
      Nat.mul_le_mul_right _ hq
    have h3 : 2 ^ (15 * (q ++ [b]).length) = 2 ^ (15 * q.length) * 32768 := by
      rw [List.length_append, List.length_singleton, Nat.mul_add, pow_add]
      norm_num
    omega

theorem byteVal_inj (xs : List Nat) : ∀ ys : List Nat, xs.length = ys.length →
    (∀ x ∈ xs, x < 256) → (∀ y ∈ ys, y < 256) → byteVal xs = byteVal ys → xs = ys := by
  induction xs using List.reverseRecOn with
  | nil =>
    intro ys hlen _ _ _
    exact (List.length_eq_zero.mp hlen.symm).symm
  | append_singleton q x ih =>
    intro ys
    induction ys using List.reverseRecOn with
    | nil => intro hlen; simp at hlen
    | append_singleton r y _ =>
      intro hlen hx hy hval
      rw [byteVal_append_singleton, byteVal_append_singleton] at hval
      have hx' : x < 256 := hx x (by simp)
      have hy' : y < 256 := hy y (by simp)
      have hv : x = y ∧ byteVal q = byteVal r := by omega
      have hq : q = r :=
        ih r (by simpa using hlen) (fun z hz => hx z (List.mem_append_left _ hz))
          (fun z hz => hy z (List.mem_append_left _ hz)) hv.2
      rw [hq, hv.1]

/-! ### Evaluation lemmas for the flush loops -/

theorem or_32768_eq_add {x : Nat} (h : x < 32768) : x ||| 32768 = x + 32768 := by
  have h15 : (32768 : Nat) = 2 ^ 15 * 1 := by norm_num
  rw [Nat.lor_comm, h15, ← Nat.mul_add_lt_is_or (by simpa using h) 1]
  ring

theorem encFlush_of_lt (acc fuel accBits : Nat) (h : accBits < 15) :
    encFlush acc fuel accBits = (accBits, []) := by
  cases fuel with
  | zero => rfl
  | succ f => simp [encFlush, Nat.not_le.mpr h]

theorem encFlush_of_ge (acc fuel accBits : Nat) (h1 : 15 ≤ accBits) (h2 : accBits < 30)
    (hf : 1 ≤ fuel) :
    encFlush acc fuel accBits =
      (accBits - 15, [((acc >>> (accBits - 15)) &&& 32767) ||| 32768]) := by
  obtain ⟨f, rfl⟩ : ∃ f, fuel = f + 1 := ⟨fuel - 1, by omega⟩
  simp [encFlush, h1, encFlush_of_lt acc f (accBits - 15) (by omega)]

/-! ### Encoder loop invariant -/

theorem encLoop_inv (p : List Nat) (hp : ∀ b ∈ p, b < 256) :
    (encLoop p).1 = byteVal p % pow32 ∧
    (encLoop p).2.1 = 8 * p.length % 15 ∧
    (encLoop p).2.2.length = 8 * p.length / 15 ∧
    (∀ w ∈ (encLoop p).2.2, 32768 ≤ w ∧ w < 65536) ∧
    wordVal ((encLoop p).2.2.map (fun w => w - 32768)) =
      byteVal p / 2 ^ (8 * p.length % 15) := by
  induction p using List.reverseRecOn with
  | nil => simp [encLoop, byteVal, wordVal]
  | append_singleton q b ih =>
    obtain ⟨ih1, ih2, ih3, ih4, ih5⟩ := ih fun x hx => hp x (List.mem_append_left _ hx)
    have hb : b < 256 := hp b (by simp)
    have hb2 : b < 2 ^ 8 := by simpa using hb
    have hloop : encLoop (q ++ [b]) = encStep (encLoop q) b := by
      simp [encLoop]
    have haB : (encLoop q).2.1 ≤ 14 := by omega
    have hacc : (((encLoop q).1 <<< 8) ||| b) % pow32 = byteVal (q ++ [b]) % pow32 := by
      rw [ih1, byteVal_append_singleton, shiftLeft_or_eq_add _ b 8 hb2,
        mod_pow32_mul_add_mod]
      congr 1
      ring
    have hdiv : byteVal (q ++ [b]) / 2 ^ ((encLoop q).2.1 + 8) = byteVal q / 2 ^ (encLoop q).2.1 := by
      have h8 : (2 : Nat) ^ ((encLoop q).2.1 + 8) = 256 * 2 ^ (encLoop q).2.1 := by
        rw [pow_add]; ring
      rw [byteVal_append_singleton, h8, ← Nat.div_div_eq_div_mul]
      congr 1
      rw [Nat.mul_comm (byteVal q) 256, Nat.mul_add_div (by norm_num)]
      simp [Nat.div_eq_of_lt hb]
    by_cases hcase : (encLoop q).2.1 + 8 < 15
    · -- no word is emitted in this step
      rw [hloop]
      simp only [encStep, encFlush_of_lt _ _ _ hcase, List.append_nil]
      refine ⟨hacc, ?_, ?_, ih4, ?_⟩
      · simp only [List.length_append, List.length_singleton]
        omega
      · simp only [List.length_append, List.length_singleton]
        omega
      · have hmod : 8 * (q ++ [b]).length % 15 = (encLoop q).2.1 + 8 := by
          simp only [List.length_append, List.length_singleton]
          omega
        rw [hmod, hdiv, ih5, ih2]
    · -- exactly one word is emitted in this step
      have hge : 15 ≤ (encLoop q).2.1 + 8 := by omega
      have hflush := encFlush_of_ge (((encLoop q).1 <<< 8 ||| b) % pow32)
        ((encLoop q).2.1 + 8) ((encLoop q).2.1 + 8) hge (by omega) (by omega)
      rw [hloop]
      simp only [encStep, hflush]
      have ha7 : (encLoop q).2.1 + 8 - 15 ≤ 7 := by omega
      have hw15 : ((((encLoop q).1 <<< 8 ||| b) % pow32) >>> ((encLoop q).2.1 + 8 - 15)) &&& 32767 =
          byteVal (q ++ [b]) / 2 ^ ((encLoop q).2.1 + 8 - 15) % 2 ^ 15 := by
        rw [hacc, Nat.shiftRight_eq_div_pow, and_32767,
          show (32768 : Nat) = 2 ^ 15 by norm_num]
        exact mod_pow32_div_mod _ _ _ (by omega)
      have hw15lt : byteVal (q ++ [b]) / 2 ^ ((encLoop q).2.1 + 8 - 15) % 2 ^ 15 < 32768 := by
        have := Nat.mod_lt (byteVal (q ++ [b]) / 2 ^ ((encLoop q).2.1 + 8 - 15))
          (show 0 < 2 ^ 15 by norm_num)
        omega
      have hword : ((((encLoop q).1 <<< 8 ||| b) % pow32) >>> ((encLoop q).2.1 + 8 - 15)) &&& 32767
            ||| 32768 =
          byteVal (q ++ [b]) / 2 ^ ((encLoop q).2.1 + 8 - 15) % 2 ^ 15 + 32768 := by
        rw [hw15, or_32768_eq_add hw15lt]
      rw [hword]
      have hmod : 8 * (q ++ [b]).length % 15 = (encLoop q).2.1 + 8 - 15 := by
        simp only [List.length_append, List.length_singleton]
        omega
      refine ⟨hacc, ?_, ?_, ?_, ?_⟩
      · omega
      · simp only [List.length_append, List.length_singleton]
        omega
      · intro w hw
        rcases List.mem_append.mp hw with hw | hw
        · exact ih4 w hw
        · have : w = byteVal (q ++ [b]) / 2 ^ ((encLoop q).2.1 + 8 - 15) % 2 ^ 15 + 32768 := by simpa using hw
          omega
      · rw [List.map_append, hmod]
        simp only [List.map_cons, List.map_nil]
        rw [show byteVal (q ++ [b]) / 2 ^ ((encLoop q).2.1 + 8 - 15) % 2 ^ 15 + 32768 - 32768 =
          byteVal (q ++ [b]) / 2 ^ ((encLoop q).2.1 + 8 - 15) % 2 ^ 15 by omega]
        rw [wordVal_append_singleton, ih5]
        have hsplit : byteVal q / 2 ^ (encLoop q).2.1 =
            byteVal (q ++ [b]) / 2 ^ ((encLoop q).2.1 + 8 - 15) / 32768 := by
          rw [← hdiv]
          have : (2 : Nat) ^ ((encLoop q).2.1 + 8) = 2 ^ ((encLoop q).2.1 + 8 - 15) * 32768 := by
            rw [show (32768 : Nat) = 2 ^ 15 by norm_num, ← pow_add]
            congr 1
            omega
          rw [this, ← Nat.div_div_eq_div_mul]
        rw [← ih2, hsplit]
        have hdm := Nat.div_add_mod (byteVal (q ++ [b]) / 2 ^ ((encLoop q).2.1 + 8 - 15)) 32768
        have h1532 : (2 : Nat) ^ 15 = 32768 := by norm_num
        rw [h1532]
        omega

theorem encWords_spec (p : List Nat) (hp : ∀ b ∈ p, b < 256) :
    (encWords p).length = (8 * p.length + 14) / 15 ∧
    (∀ w ∈ encWords p, 32768 ≤ w ∧ w < 65536) ∧
    wordVal ((encWords p).map (fun w => w - 32768)) =
      byteVal p * 2 ^ ((15 - 8 * p.length % 15) % 15) := by
  obtain ⟨h1, h2, h3, h4, h5⟩ := encLoop_inv p hp
  have haB : (encLoop p).2.1 ≤ 14 := by omega
  by_cases hz : 0 < (encLoop p).2.1
  · -- a final partial word is appended
    simp only [encWords, if_pos hz]
    have hpow : (2 : Nat) ^ (encLoop p).2.1 * 2 ^ (15 - (encLoop p).2.1) = 32768 := by
      rw [← pow_add, show (encLoop p).2.1 + (15 - (encLoop p).2.1) = 15 by omega]
      norm_num
    have hw15lt : byteVal p % 2 ^ (encLoop p).2.1 * 2 ^ (15 - (encLoop p).2.1) < 32768 := by
      have hm := Nat.mod_lt (byteVal p) (show 0 < 2 ^ (encLoop p).2.1 by positivity)
      have hmul := (Nat.mul_lt_mul_right
        (show 0 < (2 : Nat) ^ (15 - (encLoop p).2.1) by positivity)).mpr hm
      omega
    have hfw15 : (((byteVal p % pow32) <<< (15 - (encLoop p).2.1)) % pow32) &&& 32767 =
        byteVal p % 2 ^ (encLoop p).2.1 * 2 ^ (15 - (encLoop p).2.1) := by
      rw [Nat.shiftLeft_eq, and_32767, show (32768 : Nat) = 2 ^ 15 by norm_num,
        mod_pow32_mod_two_pow _ 15 (by omega)]
      have hcongr : byteVal p % pow32 * 2 ^ (15 - (encLoop p).2.1) % 2 ^ 15 =
          byteVal p * 2 ^ (15 - (encLoop p).2.1) % 2 ^ 15 :=
        Nat.ModEq.of_dvd (by rw [pow32_eq]; exact pow_dvd_pow 2 (by omega))
          ((Nat.mod_modEq (byteVal p) pow32).mul_right (2 ^ (15 - (encLoop p).2.1)))
      rw [hcongr, show (2 : Nat) ^ 15 = 2 ^ (encLoop p).2.1 * 2 ^ (15 - (encLoop p).2.1) by
          rw [← pow_add]; congr 1; omega,
        Nat.mul_mod_mul_right]
    have hfw : finalWord (encLoop p).1 (encLoop p).2.1 =
        byteVal p % 2 ^ (encLoop p).2.1 * 2 ^ (15 - (encLoop p).2.1) + 32768 := by
      unfold finalWord
      rw [h1, hfw15]
      exact or_32768_eq_add hw15lt
    refine ⟨?_, ?_, ?_⟩
    · simp only [List.length_append, List.length_singleton]
      omega
    · intro w hw
      rcases List.mem_append.mp hw with hw | hw
      · exact h4 w hw
      · have : w = finalWord (encLoop p).1 (encLoop p).2.1 := by simpa using hw
        rw [this, hfw]
        omega
    · rw [List.map_append, List.map_singleton, hfw,
        show byteVal p % 2 ^ (encLoop p).2.1 * 2 ^ (15 - (encLoop p).2.1) + 32768 - 32768 =
          byteVal p % 2 ^ (encLoop p).2.1 * 2 ^ (15 - (encLoop p).2.1) by omega,
        wordVal_append_singleton, h5, h2,
        show (15 - 8 * p.length % 15) % 15 = 15 - 8 * p.length % 15 by omega]
      have hpow : (2 : Nat) ^ (8 * p.length % 15) * 2 ^ (15 - 8 * p.length % 15) = 32768 := by
        rw [← pow_add, show 8 * p.length % 15 + (15 - 8 * p.length % 15) = 15 by omega]
        norm_num
      calc byteVal p / 2 ^ (8 * p.length % 15) * 32768 +
            byteVal p % 2 ^ (8 * p.length % 15) * 2 ^ (15 - 8 * p.length % 15)
          = (2 ^ (8 * p.length % 15) * (byteVal p / 2 ^ (8 * p.length % 15)) +
              byteVal p % 2 ^ (8 * p.length % 15)) * 2 ^ (15 - 8 * p.length % 15) := by
            rw [← hpow]; ring
        _ = byteVal p * 2 ^ (15 - 8 * p.length % 15) := by rw [Nat.div_add_mod]
  · -- the held-bit count is zero: no final word
    simp only [encWords, if_neg hz]
    have h0 : 8 * p.length % 15 = 0 := by omega
    refine ⟨by omega, h4, ?_⟩
    rw [h5, h0]
    norm_num

/-! ### The serialized array agrees with the list-building reformulation -/

theorem encStep_def (acc aB : Nat) (ws : List Nat) (b : Nat) :
    encStep (acc, aB, ws) b =
      (((acc <<< 8) ||| b) % pow32,
       (encFlush (((acc <<< 8) ||| b) % pow32) (aB + 8) (aB + 8)).1,
       ws ++ (encFlush (((acc <<< 8) ||| b) % pow32) (aB + 8) (aB + 8)).2) := rfl

theorem encStepArr_def (acc aB bp : Nat) (res : List Nat) (b : Nat) :
    encStepArr (acc, aB, bp, res) b =
      (((acc <<< 8) ||| b) % pow32,
       encFlushArr (((acc <<< 8) ||| b) % pow32) (aB + 8) (aB + 8) bp res) := rfl

theorem encFlushArr_of_lt (acc fuel accBits bp : Nat) (res : List Nat) (h : accBits < 15) :
    encFlushArr acc fuel accBits bp res = (accBits, bp, res) := by
  cases fuel with
  | zero => rfl
  | succ f => simp [encFlushArr, Nat.not_le.mpr h]

theorem foldl_encStep_append (p : List Nat) : ∀ (acc aB : Nat) (ws : List Nat),
    p.foldl encStep (acc, aB, ws) =
      ((p.foldl encStep (acc, aB, [])).1, (p.foldl encStep (acc, aB, [])).2.1,
        ws ++ (p.foldl encStep (acc, aB, [])).2.2) := by
  induction p with
  | nil =>
    intro acc aB ws
    simp
  | cons b q ih =>
    intro acc aB ws
    simp only [List.foldl_cons, encStep_def]
    rw [ih _ _ (ws ++ _), ih _ _ ([] ++ _)]
    simp

theorem encFlushArr_eq (acc : Nat) : ∀ (fuel accBits : Nat) (pre post : List Nat),
    (encFlush acc fuel accBits).2.length ≤ post.length →
    encFlushArr acc fuel accBits pre.length (pre ++ post) =
      ((encFlush acc fuel accBits).1, pre.length + (encFlush acc fuel accBits).2.length,
        pre ++ (encFlush acc fuel accBits).2 ++ post.drop (encFlush acc fuel accBits).2.length) := by
  intro fuel
  induction fuel with
  | zero =>
    intro accBits pre post _
    simp [encFlushArr, encFlush]
  | succ f ih =>
    intro accBits pre post h
    by_cases h15 : 15 ≤ accBits
    · have hfl : encFlush acc (f + 1) accBits =
          ((encFlush acc f (accBits - 15)).1,
           (((acc >>> (accBits - 15)) &&& 32767) ||| 32768) :: (encFlush acc f (accBits - 15)).2) := by
        simp [encFlush, h15]
      rw [hfl] at h ⊢
      obtain ⟨q, qs, rfl⟩ : ∃ q qs, post = q :: qs := by
        cases post with
        | nil => simp at h
        | cons q qs => exact ⟨q, qs, rfl⟩
      have harr : encFlushArr acc (f + 1) accBits pre.length (pre ++ q :: qs) =
          encFlushArr acc f (accBits - 15) (pre.length + 1)
            ((pre ++ q :: qs).set pre.length (((acc >>> (accBits - 15)) &&& 32767) ||| 32768)) := by
        simp [encFlushArr, h15]
      rw [harr, List.set_append_right _ _ (Nat.le_refl pre.length)]
      simp only [Nat.sub_self, List.set_cons_zero]
      have hsplit : pre ++ (((acc >>> (accBits - 15)) &&& 32767) ||| 32768) :: qs =
          (pre ++ [(((acc >>> (accBits - 15)) &&& 32767) ||| 32768)]) ++ qs := by
        simp
      rw [hsplit,
        show pre.length + 1 =
          (pre ++ [(((acc >>> (accBits - 15)) &&& 32767) ||| 32768)]).length by simp,
        ih (accBits - 15) _ qs (by simpa using h)]
      simp only [Prod.mk.injEq, List.length_append, List.length_singleton, List.length_cons,
        List.drop_succ_cons, List.append_assoc, List.cons_append, List.nil_append]
      refine ⟨trivial, ?_, trivial⟩
      simp only [List.length_nil]
      omega
    · rw [encFlushArr_of_lt _ _ _ _ _ (by omega), encFlush_of_lt _ _ _ (by omega)]
      simp

theorem foldl_encStepArr_eq (p : List Nat) : ∀ (acc aB : Nat) (pre post : List Nat),
    aB ≤ 14 → (aB + 8 * p.length) / 15 ≤ post.length →
    p.foldl encStepArr (acc, aB, pre.length, pre ++ post) =
      ((p.foldl encStep (acc, aB, [])).1,
       (p.foldl encStep (acc, aB, [])).2.1,
       pre.length + (p.foldl encStep (acc, aB, [])).2.2.length,
       pre ++ (p.foldl encStep (acc, aB, [])).2.2 ++
         post.drop (p.foldl encStep (acc, aB, [])).2.2.length) := by
  induction p with
  | nil =>
    intro acc aB pre post _ _
    simp
  | cons b q ih =>
    intro acc aB pre post haB hroom
    simp only [List.length_cons] at hroom
    simp only [List.foldl_cons, encStepArr_def, encStep_def]
    by_cases hcase : aB + 8 < 15
    · -- no word emitted by this byte
      rw [encFlush_of_lt _ _ _ hcase, encFlushArr_of_lt _ _ _ _ _ hcase,
        ih _ _ pre post (by omega) (by omega),
        foldl_encStep_append q _ _ ([] ++ [])]
      simp
    · have hge : 15 ≤ aB + 8 := by omega
      have hflE := encFlush_of_ge (((acc <<< 8) ||| b) % pow32) (aB + 8) (aB + 8) hge
        (by omega) (by omega)
      have hpost : 1 ≤ post.length := by
        have h15 : 1 ≤ (aB + 8 * (q.length + 1)) / 15 := by omega
        omega
      have harr := encFlushArr_eq (((acc <<< 8) ||| b) % pow32) (aB + 8) (aB + 8) pre post
        (by rw [hflE]; simpa using hpost)
      rw [harr]
      simp only [hflE, List.length_singleton, List.nil_append]
      rw [show pre.length + 1 =
          (pre ++ [(((((acc <<< 8) ||| b) % pow32) >>> (aB + 8 - 15)) &&& 32767) ||| 32768]).length
          by simp,
        ih _ _ (pre ++ [(((((acc <<< 8) ||| b) % pow32) >>> (aB + 8 - 15)) &&& 32767) ||| 32768])
          (post.drop 1) (by omega) (by
            simp only [List.length_drop]
            omega),
        foldl_encStep_append q _ _
          [(((((acc <<< 8) ||| b) % pow32) >>> (aB + 8 - 15)) &&& 32767) ||| 32768]]
      simp only [Prod.mk.injEq, List.length_append, List.length_singleton, List.length_cons,
        List.append_assoc, List.singleton_append, List.cons_append, List.drop_drop]
      refine ⟨trivial, trivial, by omega, ?_⟩
      simp [Nat.add_comm]

theorem drop_replicate (a : Nat) : ∀ (m n : Nat),
    (List.replicate n a).drop m = List.replicate (n - m) a := by
  intro m
  induction m with
  | zero => intro n; simp
  | succ m ih =>
    intro n
    cases n with
    | zero => simp
    | succ n =>
      rw [List.replicate_succ, List.drop_succ_cons, ih n]
      congr 1
      omega

theorem setStream_eq (p : List Nat) (hp : ∀ b ∈ p, b < 256) :
    setStream p = p.length :: encWords p := by
  obtain ⟨h1, h2, h3, h4, h5⟩ := encLoop_inv p hp
  simp only [setStream]
  have hres0 : (List.replicate (allocWords p.length) 0).set 0 p.length =
      [p.length] ++ List.replicate ((8 * p.length + 14) / 15) 0 := by
    simp [allocWords, List.replicate_succ]
  rw [hres0, show (1 : Nat) = [p.length].length from rfl,
    foldl_encStepArr_eq p 0 0 [p.length] (List.replicate ((8 * p.length + 14) / 15) 0)
      (by omega)
      (by simp only [List.length_replicate]; omega),
    show List.foldl encStep (0, 0, []) p = encLoop p from rfl]
  simp only [List.length_singleton, drop_replicate]
  by_cases hz : 0 < (encLoop p).2.1
  · rw [if_pos hz]
    have hrem : (8 * p.length + 14) / 15 - (encLoop p).2.2.length = 1 := by omega
    rw [hrem, List.replicate_one,
      List.set_append_right _ _
        (by simp; omega : ([p.length] ++ (encLoop p).2.2).length ≤ 1 + (encLoop p).2.2.length)]
    simp only [List.length_append, List.length_singleton,
      show 1 + (encLoop p).2.2.length - (1 + (encLoop p).2.2.length) = 0 by omega,
      List.set_cons_zero]
    simp only [encWords]
    rw [if_pos hz]
    simp
  · rw [if_neg hz]
    have hrem : (8 * p.length + 14) / 15 - (encLoop p).2.2.length = 0 := by omega
    rw [hrem]
    simp only [encWords]
    rw [if_neg hz]
    simp

/-! ### Decoder loop invariant -/

theorem decFlush_inv (n U : Nat) :
    ∀ (fuel accBits bytePos : Nat) (ws : List (Nat × Nat)) (acc : Nat),
    accBits ≤ fuel → acc = U % pow32 → accBits ≤ 22 → bytePos ≤ n →
    U < 2 ^ (8 * bytePos + accBits) →
    ws.map Prod.fst = List.range bytePos →
    byteVal (ws.map Prod.snd) = U / 2 ^ accBits →
    (∀ v ∈ ws.map Prod.snd, v < 256) →
    (decFlush acc n fuel accBits bytePos ws).2.1 = min n (bytePos + accBits / 8) ∧
    (decFlush acc n fuel accBits bytePos ws).1 =
      accBits - 8 * ((decFlush acc n fuel accBits bytePos ws).2.1 - bytePos) ∧
    (decFlush acc n fuel accBits bytePos ws).2.2.map Prod.fst =
      List.range (decFlush acc n fuel accBits bytePos ws).2.1 ∧
    byteVal ((decFlush acc n fuel accBits bytePos ws).2.2.map Prod.snd) =
      U / 2 ^ (decFlush acc n fuel accBits bytePos ws).1 ∧
    (∀ v ∈ (decFlush acc n fuel accBits bytePos ws).2.2.map Prod.snd, v < 256) ∧
    U < 2 ^ (8 * (decFlush acc n fuel accBits bytePos ws).2.1 +
      (decFlush acc n fuel accBits bytePos ws).1) := by
  intro fuel
  induction fuel with
  | zero =>
    intro accBits bytePos ws acc hf hacc h22 hbn hU hfst hval hlt
    have h0 : accBits = 0 := by omega
    subst h0
    simp only [decFlush]
    exact ⟨by omega, by omega, hfst, hval, hlt, hU⟩
  | succ f ih =>
    intro accBits bytePos ws acc hf hacc h22 hbn hU hfst hval hlt
    by_cases h8 : 8 ≤ accBits
    · by_cases hbb : n ≤ bytePos
      · have hd : decFlush acc n (f + 1) accBits bytePos ws = (accBits, bytePos, ws) := by
          simp [decFlush, h8, hbb]
        rw [hd]
        simp only []
        exact ⟨by omega, by omega, hfst, hval, hlt, hU⟩
      · have hlt_n : bytePos < n := by omega
        have hd : decFlush acc n (f + 1) accBits bytePos ws =
            decFlush acc n f (accBits - 8) (bytePos + 1)
              (ws ++ [(bytePos, (acc >>> (accBits - 8)) &&& 255)]) := by
          simp [decFlush, h8, hbb]
        have hbyte : (acc >>> (accBits - 8)) &&& 255 = U / 2 ^ (accBits - 8) % 2 ^ 8 := by
          rw [hacc, Nat.shiftRight_eq_div_pow, and_255, show (256 : Nat) = 2 ^ 8 by norm_num]
          exact mod_pow32_div_mod _ _ _ (by omega)
        have hfst' : (ws ++ [(bytePos, (acc >>> (accBits - 8)) &&& 255)]).map Prod.fst =
            List.range (bytePos + 1) := by
          rw [List.map_append, hfst]
          simp [List.range_succ]
        have hval' : byteVal ((ws ++ [(bytePos, (acc >>> (accBits - 8)) &&& 255)]).map Prod.snd) =
            U / 2 ^ (accBits - 8) := by
          rw [List.map_append]
          simp only [List.map_cons, List.map_nil]
          rw [byteVal_append_singleton, hval, hbyte]
          have hsplit : U / 2 ^ accBits = U / 2 ^ (accBits - 8) / 2 ^ 8 := by
            rw [Nat.div_div_eq_div_mul, ← pow_add, show accBits - 8 + 8 = accBits by omega]
          rw [hsplit]
          have hdm := Nat.div_add_mod (U / 2 ^ (accBits - 8)) 256
          have h28 : (2 : Nat) ^ 8 = 256 := by norm_num
          rw [h28]
          omega
        have hlt' : ∀ v ∈ (ws ++ [(bytePos, (acc >>> (accBits - 8)) &&& 255)]).map Prod.snd,
            v < 256 := by
          intro v hv
          rw [List.map_append] at hv
          rcases List.mem_append.mp hv with hv | hv
          · exact hlt v hv
          · have hveq : v = (acc >>> (accBits - 8)) &&& 255 := by simpa using hv
            rw [hveq, hbyte]
            have := Nat.mod_lt (U / 2 ^ (accBits - 8)) (show 0 < 2 ^ 8 by norm_num)
            omega
        rw [hd]
        obtain ⟨r1, r2, r3, r4, r5, r6⟩ := ih (accBits - 8) (bytePos + 1)
          (ws ++ [(bytePos, (acc >>> (accBits - 8)) &&& 255)]) acc
          (by omega) hacc (by omega) (by omega)
          (by rw [show 8 * (bytePos + 1) + (accBits - 8) = 8 * bytePos + accBits by omega]
              exact hU)
          hfst' hval' hlt'
        refine ⟨?_, ?_, r3, r4, r5, r6⟩
        · rw [r1]
          omega
        · rw [r2, r1]
          omega
    · have hd : decFlush acc n (f + 1) accBits bytePos ws = (accBits, bytePos, ws) := by
        simp [decFlush, h8]
      rw [hd]
      simp only []
      exact ⟨by omega, by omega, hfst, hval, hlt, hU⟩

theorem decLoop_inv (n : Nat) (vs : List Nat)
    (hv : ∀ v ∈ vs, v < 32768)
    (hlen : 15 * vs.length ≤ 8 * n + 14) :
    (decLoop n (vs.map (fun v => v + 32768))).1 = wordVal vs % pow32 ∧
    (decLoop n (vs.map (fun v => v + 32768))).2.2.1 = min n (15 * vs.length / 8) ∧
    (decLoop n (vs.map (fun v => v + 32768))).2.1 =
      15 * vs.length - 8 * (decLoop n (vs.map (fun v => v + 32768))).2.2.1 ∧
    (decLoop n (vs.map (fun v => v + 32768))).2.2.2.map Prod.fst =
      List.range (decLoop n (vs.map (fun v => v + 32768))).2.2.1 ∧
    byteVal ((decLoop n (vs.map (fun v => v + 32768))).2.2.2.map Prod.snd) =
      wordVal vs / 2 ^ (decLoop n (vs.map (fun v => v + 32768))).2.1 ∧
    (∀ x ∈ (decLoop n (vs.map (fun v => v + 32768))).2.2.2.map Prod.snd, x < 256) := by
  induction vs using List.reverseRecOn with
  | nil => simp [decLoop, wordVal, byteVal]
  | append_singleton qs v ih =>
    have hv' : ∀ x ∈ qs, x < 32768 := fun x hx => hv x (List.mem_append_left _ hx)
    have hvv : v < 32768 := hv v (by simp)
    have hv15 : v < 2 ^ 15 := by simpa using hvv
    have hlen1 : 15 * (qs.length + 1) ≤ 8 * n + 14 := by
      simpa using hlen
    obtain ⟨i1, i2, i3, i4, i5, i6⟩ := ih hv' (by omega)
    have hbp_lt : 15 * qs.length / 8 < n := by omega
    have hbp : (decLoop n (qs.map (fun v => v + 32768))).2.2.1 = 15 * qs.length / 8 := by
      rw [i2]
      omega
    have haB : (decLoop n (qs.map (fun v => v + 32768))).2.1 = 15 * qs.length % 8 := by
      rw [i3, hbp]
      omega
    have hcode : decWordInput (v + 32768) = v := by
      unfold decWordInput
      rw [show (32768 : Nat) = 2 ^ 15 by norm_num]
      exact add_two_pow_xor hv15
    have hacc' : (((wordVal qs % pow32) <<< 15) ||| v) % pow32 = wordVal (qs ++ [v]) % pow32 := by
      rw [shiftLeft_or_eq_add _ v 15 hv15, mod_pow32_mul_add_mod, wordVal_append_singleton,
        show (2 : Nat) ^ 15 = 32768 by norm_num]
      congr 1
      ring
    have hstep : decLoop n ((qs ++ [v]).map (fun v => v + 32768)) =
        (wordVal (qs ++ [v]) % pow32,
         decFlush (wordVal (qs ++ [v]) % pow32) n (15 * qs.length % 8 + 15)
           (15 * qs.length % 8 + 15) (15 * qs.length / 8)
           (decLoop n (qs.map (fun v => v + 32768))).2.2.2) := by
      rw [show (qs ++ [v]).map (fun v => v + 32768) =
          qs.map (fun v => v + 32768) ++ [v + 32768] from by simp,
        show decLoop n (qs.map (fun v => v + 32768) ++ [v + 32768]) =
          decStep n (decLoop n (qs.map (fun v => v + 32768))) (v + 32768) from by
            simp [decLoop]]
      simp only [decStep]
      rw [hcode, i1, haB, hbp, hacc']
    have hUlt : wordVal (qs ++ [v]) <
        2 ^ (8 * (15 * qs.length / 8) + (15 * qs.length % 8 + 15)) := by
      have hb := wordVal_lt (qs ++ [v]) hv
      have hexp : 15 * (qs ++ [v]).length =
          8 * (15 * qs.length / 8) + (15 * qs.length % 8 + 15) := by
        simp only [List.length_append, List.length_singleton]
        omega
      rw [hexp] at hb
      exact hb
    have hUdiv : wordVal (qs ++ [v]) / 2 ^ (15 * qs.length % 8 + 15) =
        wordVal qs / 2 ^ (15 * qs.length % 8) := by
      rw [wordVal_append_singleton,
        show (2 : Nat) ^ (15 * qs.length % 8 + 15) = 32768 * 2 ^ (15 * qs.length % 8) from by
          rw [pow_add, show (2 : Nat) ^ 15 = 32768 from by norm_num, Nat.mul_comm],
        ← Nat.div_div_eq_div_mul]
      congr 1
      rw [Nat.mul_comm (wordVal qs) 32768, Nat.mul_add_div (by norm_num)]
      simp [Nat.div_eq_of_lt hvv]
    obtain ⟨d1, d2, d3, d4, d5, d6⟩ := decFlush_inv n (wordVal (qs ++ [v]))
      (15 * qs.length % 8 + 15) (15 * qs.length % 8 + 15) (15 * qs.length / 8)
      (decLoop n (qs.map (fun v => v + 32768))).2.2.2 (wordVal (qs ++ [v]) % pow32)
      (Nat.le_refl _) rfl (by omega) (by omega) hUlt
      (by rw [← hbp]; exact i4)
      (by rw [hUdiv, ← haB]; exact i5)
      i6
    rw [hstep, show (qs ++ [v]).length = qs.length + 1 from by simp]
    simp only []
    refine ⟨trivial, ?_, ?_, d3, d4, d5⟩
    · rw [d1]
      omega
    · rw [d2, d1]
      omega

/-! ### Replaying consecutive writes -/

theorem applyWrites_seq : ∀ (ws : List (Nat × Nat)) (k : Nat) (buf : List Nat),
    ws.map Prod.fst = List.range' k ws.length →
    k + ws.length ≤ buf.length →
    applyWrites buf ws = buf.take k ++ ws.map Prod.snd ++ buf.drop (k + ws.length) := by
  intro ws
  induction ws with
  | nil =>
    intro k buf _ _
    simp [applyWrites]
  | cons pr rest ih =>
    intro k buf hfst hlen
    obtain ⟨i, v⟩ := pr
    simp only [List.map_cons, List.length_cons] at hfst hlen ⊢
    rw [List.range'_succ] at hfst
    simp only [List.cons.injEq] at hfst
    obtain ⟨rfl, hrest⟩ := hfst
    have hk : i < buf.length := by omega
    have happ : applyWrites buf ((i, v) :: rest) = applyWrites (buf.set i v) rest := rfl
    rw [happ, ih (i + 1) (buf.set i v) hrest (by simp; omega)]
    have htake : (buf.set i v).take (i + 1) = buf.take i ++ [v] := by
      rw [List.set_eq_take_cons_drop v hk, List.take_append_eq_append_take]
      have hlt : (buf.take i).length = i := by
        rw [List.length_take]
        omega
      rw [List.take_of_length_le (by omega : (buf.take i).length ≤ i + 1), hlt]
      simp
    have hdrop : (buf.set i v).drop (i + 1 + rest.length) = buf.drop (i + 1 + rest.length) := by
      rw [List.drop_set, if_pos (by omega)]
    rw [htake, hdrop, show i + 1 + rest.length = i + (rest.length + 1) from by omega]
    simp

theorem applyWrites_length (ws : List (Nat × Nat)) : ∀ buf : List Nat,
    (applyWrites buf ws).length = buf.length := by
  induction ws with
  | nil =>
    intro buf
    rfl
  | cons pr rest ih =>
    intro buf
    rw [show applyWrites buf (pr :: rest) = applyWrites (buf.set pr.1 pr.2) rest from rfl, ih]
    simp

/-! ### The decoder never writes outside the declared buffer -/

theorem decFlush_writes_lt (acc n : Nat) : ∀ (fuel accBits bytePos : Nat) (ws : List (Nat × Nat)),
    (∀ pr ∈ ws, pr.1 < n) →
    ∀ pr ∈ (decFlush acc n fuel accBits bytePos ws).2.2, pr.1 < n := by
  intro fuel
  induction fuel with
  | zero =>
    intro accBits bytePos ws h
    simpa [decFlush] using h
  | succ f ih =>
    intro accBits bytePos ws h
    by_cases h8 : 8 ≤ accBits
    · by_cases hbb : n ≤ bytePos
      · simpa [decFlush, h8, hbb] using h
      · rw [show decFlush acc n (f + 1) accBits bytePos ws =
            decFlush acc n f (accBits - 8) (bytePos + 1)
              (ws ++ [(bytePos, (acc >>> (accBits - 8)) &&& 255)]) from by
          simp [decFlush, h8, hbb]]
        apply ih
        intro pr hpr
        rcases List.mem_append.mp hpr with hpr | hpr
        · exact h pr hpr
        · have hpr' : pr = (bytePos, (acc >>> (accBits - 8)) &&& 255) := by simpa using hpr
          rw [hpr']
          omega
    · simpa [decFlush, h8] using h

theorem decLoop_writes_lt (n : Nat) (codes : List Nat) :
    ∀ pr ∈ (decLoop n codes).2.2.2, pr.1 < n := by
  suffices h : ∀ (codes : List Nat) (st : Nat × Nat × Nat × List (Nat × Nat)),
      (∀ pr ∈ st.2.2.2, pr.1 < n) →
      ∀ pr ∈ (codes.foldl (decStep n) st).2.2.2, pr.1 < n by
    exact h codes (0, 0, 0, []) (by simp)
  intro codes
  induction codes with
  | nil =>
    intro st h
    exact h
  | cons c rest ih =>
    intro st h
    rw [List.foldl_cons]
    apply ih
    obtain ⟨acc, aB, bp, ws⟩ := st
    simp only [decStep]
    exact decFlush_writes_lt _ n _ _ _ _ h

theorem decWrites_lt (s : List Nat) : ∀ pr ∈ decWrites s, pr.1 < bufLenOf s := by
  match s with
  | [] =>
    intro pr hpr
    simp [decWrites] at hpr
  | bufLen :: rest =>
    intro pr hpr
    simp only [decWrites] at hpr
    by_cases hc : 0 < (decLoop bufLen rest).2.1 ∧ (decLoop bufLen rest).2.2.1 < bufLen
    · rw [if_pos hc] at hpr
      rcases List.mem_append.mp hpr with hpr | hpr
      · exact decLoop_writes_lt bufLen rest pr hpr
      · have hpr' : pr = ((decLoop bufLen rest).2.2.1,
            decTailByte (decLoop bufLen rest).1 (decLoop bufLen rest).2.1) := by
          simpa using hpr
        rw [hpr']
        exact hc.2
    · rw [if_neg hc] at hpr
      exact decLoop_writes_lt bufLen rest pr hpr

theorem getBytes_length (s : List Nat) : (getBytes s).length = bufLenOf s := by
  rw [getBytes, applyWrites_length]
  simp

/-! ### Round trip -/

theorem map_sub_add (l : List Nat) (h : ∀ w ∈ l, 32768 ≤ w) :
    (l.map (fun w => w - 32768)).map (fun v => v + 32768) = l := by
  induction l with
  | nil => rfl
  | cons x xs ih =>
    simp only [List.map_cons, List.cons.injEq]
    constructor
    · have := h x (by simp)
      omega
    · exact ih fun w hw => h w (by simp [hw])

theorem getBytes_setStream (p : List Nat) (hp : ∀ b ∈ p, b < 256) :
    getBytes (setStream p) = p := by
  obtain ⟨e1, e2, e3⟩ := encWords_spec p hp
  rw [setStream_eq p hp]
  have hvs : ((encWords p).map (fun w => w - 32768)).map (fun v => v + 32768) = encWords p :=
    map_sub_add _ fun w hw => (e2 w hw).1
  have hvlt : ∀ v ∈ (encWords p).map (fun w => w - 32768), v < 32768 := by
    intro v hv
    obtain ⟨w, hw, rfl⟩ := List.mem_map.mp hv
    have := e2 w hw
    omega
  have hlen15 : 15 * ((encWords p).map (fun w => w - 32768)).length ≤ 8 * (p.length) + 14 := by
    rw [List.length_map, e1]
    omega
  obtain ⟨g1, g2, g3, g4, g5, g6⟩ :=
    decLoop_inv (p.length) ((encWords p).map (fun w => w - 32768)) hvlt hlen15
  rw [hvs] at g1 g2 g3 g4 g5 g6
  rw [List.length_map, e1] at g2 g3
  have h15m : 8 * (p.length) ≤ 15 * ((8 * (p.length) + 14) / 15) := by omega
  have hbp : (decLoop (p.length) (encWords p)).2.2.1 = (p.length) := by
    rw [g2]
    have hnd : (p.length) ≤ 15 * ((8 * (p.length) + 14) / 15) / 8 := by
      rw [Nat.le_div_iff_mul_le (by norm_num)]
      omega
    omega
  have haB : (decLoop (p.length) (encWords p)).2.1 = 15 * ((8 * (p.length) + 14) / 15) - 8 * (p.length) := by
    rw [g3, hbp]
  have hpad : 15 * ((8 * (p.length) + 14) / 15) - 8 * (p.length) = (15 - 8 * (p.length) % 15) % 15 := by omega
  have hbv : byteVal ((decLoop (p.length) (encWords p)).2.2.2.map Prod.snd) = byteVal p := by
    rw [g5, haB, hpad, e3]
    exact Nat.mul_div_cancel _ (by positivity)
  have hdw : decWrites ((p.length) :: encWords p) = (decLoop (p.length) (encWords p)).2.2.2 := by
    simp only [decWrites]
    rw [if_neg]
    intro hcon
    rw [hbp] at hcon
    exact absurd hcon.2 (Nat.lt_irrefl (p.length))
  have hwlen : (decLoop (p.length) (encWords p)).2.2.2.length = (p.length) := by
    have hcl := congrArg List.length g4
    simpa [hbp] using hcl
  show getBytes ((p.length) :: encWords p) = p
  rw [getBytes, show bufLenOf ((p.length) :: encWords p) = (p.length) from rfl, hdw,
    applyWrites_seq _ 0 _ (by rw [g4, hbp, hwlen, List.range_eq_range'])
      (by simp [hwlen])]
  simp only [List.take_zero, List.nil_append, Nat.zero_add, hwlen, drop_replicate,
    Nat.sub_self, List.replicate_zero, List.append_nil]
  exact byteVal_inj _ p (by simp [hwlen]) g6 hp hbv

/-!
### Model of the exported operations

`setDynamicBuffer`/`getDynamicBuffer` validate their arguments and talk to the
dynamic-property storage.  The JavaScript-level distinctions the code makes are
modelled by small inductive types; the outcome types record whether the
functions threw before reaching the storage adapter.
-/

/-- The `identifier` argument: either a JS string or a value of any other
type (`typeof identifier !== "string"`, line 34/104). -/
inductive JSIdent where
  | str (s : String)
  | other
deriving DecidableEq

/-- The error classes thrown by the source. -/
inductive JSError where
  | typeError
  | rangeError
deriving DecidableEq

/-- The `buffer` argument of `setDynamicBuffer` (line 11): `undefined`,
`null`, a plain numeric array, an `ArrayBuffer` (given by its bytes), an
`ArrayBufferView` (given by the bytes of its whole underlying ArrayBuffer, its
byteOffset and its byteLength), or any other value (rejected, line 45-53). -/
inductive BufferArg where
  | undef
  | nullArg
  | numArray (xs : List Nat)
  | arrayBuf (bytes : List Nat)
  | view (underlying : List Nat) (byteOffset byteLength : Nat)
  | invalid
deriving DecidableEq

/-- Line 55: `new Uint8Array((buffer as ArrayBufferView).buffer || buffer)`.
A plain array has no `.buffer` property, so the array itself is used (each
element coerced to a byte, i.e. taken mod 256); an `ArrayBuffer` has no
`.buffer` either and wraps itself; a view DOES have `.buffer`, which is its
WHOLE underlying `ArrayBuffer` — the view's byteOffset and byteLength are
ignored by this expression. -/
def normalizeBuf : BufferArg → List Nat
  | .numArray xs => xs.map (fun x => x % 256)
  | .arrayBuf bytes => bytes
  | .view underlying _ _ => underlying
  | _ => []

/-- Modelled from the spec: the canonical byte sequence an `ArrayBufferView`
denotes — the `byteLength` bytes of its underlying buffer starting at
`byteOffset` (what `new Uint8Array(v.buffer, v.byteOffset, v.byteLength)`
would read).  This definition follows section 3 of the spec ("a typed view
over one; all are normalized to this canonical form before encoding") and is
compared against `normalizeBuf`, which models the source. -/
def specViewBytes (underlying : List Nat) (byteOffset byteLength : Nat) : List Nat :=
  (underlying.drop byteOffset).take byteLength

/-- The argument shapes the source accepts at lines 45-53
(`Array.isArray || instanceof ArrayBuffer || ArrayBuffer.isView`). -/
def acceptedShape : BufferArg → Bool
  | .numArray _ => true
  | .arrayBuf _ => true
  | .view _ _ _ => true
  | _ => false

/-- An identifier both operations reject with a `TypeError`
(non-string, or the empty string; lines 34-40 and 104-110). -/
def badIdent : JSIdent → Bool
  | .other => true
  | .str s => s.isEmpty

/-- Outcome of `setDynamicBuffer`: either an error thrown before any call to
`setDynamicProperty`, or the single `setDynamicProperty` call it performs
(clearing the property, line 42-43, or storing the encoded text, line 89-92). -/
inductive SetOutcome where
  | threw (e : JSError)
  | storedNone
  | storedText (s : List Nat)
deriving DecidableEq

/-- `setDynamicBuffer` (lines 33-93), with the statements in source order. -/
def setDynamicBufferModel (ident : JSIdent) (buffer : BufferArg) : SetOutcome :=
  match ident with
  | .other => .threw .typeError
  | .str s =>
    if s.isEmpty then .threw .typeError
    else
      match buffer with
      | .undef => .storedNone
      | .nullArg => .storedNone
      | .invalid => .threw .typeError
      | b =>
        let buf := normalizeBuf b
        let bufLen := buf.length
        if bufLen = 0 ∨ bufLen > 20476 then .threw .rangeError
        else .storedText (setStream buf)

/-- The value `getDynamicProperty` returns for the key: a text value, nothing,
or a value of one of the other scalar types. -/
inductive StoredVal where
  | vText (s : List Nat)
  | vNone
  | vOther
deriving DecidableEq

/-- Modelled from the spec (section 4.3, Storage Adapter):
`store(key, textOrNone)` — the stored value after a successful
`setDynamicBuffer` call: `setDynamicProperty(id, undefined)` clears the key
and a text argument replaces the value; a thrown error leaves storage
unchanged. -/
def storedAfterSet : SetOutcome → StoredVal → StoredVal
  | .threw _, prior => prior
  | .storedNone, _ => .vNone
  | .storedText t, _ => .vText t

/-- Outcome of `getDynamicBuffer`: either an error thrown before the
`getDynamicProperty` call, or the returned value (`none` = `undefined`). -/
inductive GetOutcome where
  | threw (e : JSError)
  | loaded (r : Option (List Nat))
deriving DecidableEq

/-- `getDynamicBuffer` (lines 103-147), with the statements in source order;
`stored` is what `this.getDynamicProperty(identifier)` returns. -/
def getDynamicBufferModel (ident : JSIdent) (stored : StoredVal) : GetOutcome :=
  match ident with
  | .other => .threw .typeError
  | .str s =>
    if s.isEmpty then .threw .typeError
    else
      match stored with
      | .vText t => .loaded (some (getBytes t))
      | _ => .loaded none

/-! ### Claims -/

/-- C1: for every byte payload `p` of length 1..20476 (all byte values,
including all-0x00 and all-0xFF), decoding the code-unit stream produced by
encoding `p` reproduces `p` exactly, byte for byte:
`getBytes (setStream p) = p`. -/
theorem claim_C1_roundtrip (p : List Nat) (hb : ∀ b ∈ p, b < 256)
    (h1 : 1 ≤ p.length) (h2 : p.length ≤ 20476) :
    getBytes (setStream p) = p :=
  getBytes_setStream p hb

theorem claim_C1_roundtrip_witness :
    (∀ b ∈ ([0, 255, 66] : List Nat), b < 256) ∧
      1 ≤ ([0, 255, 66] : List Nat).length ∧ ([0, 255, 66] : List Nat).length ≤ 20476 ∧
      getBytes (setStream [0, 255, 66]) = [0, 255, 66] :=
  ⟨by decide, by decide, by decide,
    claim_C1_roundtrip [0, 255, 66] (by decide) (by decide) (by decide)⟩

/-- C2 (counterexample): the decoder does not clear bit 15 of an input word
with an AND mask — for the word 0 (bit 15 unset) the value fed into the bit
accumulator is `decWordInput 0 = 0 ^^^ 0x8000 = 0x8000`, not the word's low
15 bits `0 &&& 0x7FFF = 0`. -/
theorem claim_C2_counterexample : ¬ (decWordInput 0 = 0 &&& 32767) := by decide

/-- C2 (amended): line 131 toggles bit 15 with XOR 0x8000 rather than masking
it.  For a word with bit 15 set — every payload word this encoder emits —
toggling coincides with clearing, so the value fed into the accumulator is the
word's low 15 bits; but for a word with bit 15 unset the fed value is the
word's value plus 0x8000, not its low 15 bits. -/
theorem claim_C2_xor_toggles (c : Nat) (hc : c < 65536) :
    (32768 ≤ c → decWordInput c = c &&& 32767) ∧
    (c < 32768 → decWordInput c = c + 32768) := by
  constructor
  · intro h
    unfold decWordInput
    rw [and_32767, show (32768 : Nat) = 2 ^ 15 by norm_num]
    have hc' : c - 2 ^ 15 < 2 ^ 15 := by omega
    have hdecomp : c = c - 2 ^ 15 + 2 ^ 15 := by omega
    rw [hdecomp, add_two_pow_xor hc']
    omega
  · intro h
    unfold decWordInput
    rw [show (32768 : Nat) = 2 ^ 15 by norm_num]
    exact xor_two_pow_of_lt (by omega)

theorem claim_C2_xor_toggles_witness :
    (4660 : Nat) < 65536 ∧
      ((32768 ≤ (4660 : Nat) → decWordInput 4660 = 4660 &&& 32767) ∧
        ((4660 : Nat) < 32768 → decWordInput 4660 = 4660 + 32768)) :=
  ⟨by decide, claim_C2_xor_toggles 4660 (by decide)⟩

/-- C3 (counterexample): encoding the single-byte payload [0x42] does NOT
produce the 2-word stream [1, 0x8210] stated in the spec. -/
theorem claim_C3_counterexample : ¬ (setStream [66] = [1, 33296]) := by decide

/-- C3 (amended): encoding [0x42] produces the 2-word stream with word0 = 1
and word1 = 0x8000 ||| (0x42 <<< 7) — the claim's own formula — whose value is
0xA100 = 41216, not the 0x8210 given in the claim's arithmetic. -/
theorem claim_C3_encode_single :
    setStream [66] = [1, 32768 ||| (66 <<< 7)] ∧ 32768 ||| (66 <<< 7) = 41216 := by
  constructor
  · decide
  · decide

/-- C4 (code evaluated at the failing input): for a one-byte
`ArrayBufferView` at byteOffset 1 over the three-byte buffer
[0xAA, 0xBB, 0xCC], line 55 (`new Uint8Array(view.buffer || buffer)`) uses
the view's WHOLE underlying `ArrayBuffer`, so the byte payload that is
length-checked and encoded is all three underlying bytes, not the single byte
the view denotes ([0xBB], `specViewBytes`). -/
theorem claim_C4_view_bug :
    normalizeBuf (BufferArg.view [170, 187, 204] 1 1) = [170, 187, 204] ∧
    specViewBytes [170, 187, 204] 1 1 = [187] ∧
    normalizeBuf (BufferArg.view [170, 187, 204] 1 1) ≠ specViewBytes [170, 187, 204] 1 1 ∧
    setDynamicBufferModel (.str "k") (BufferArg.view [170, 187, 204] 1 1) =
      .storedText (setStream [170, 187, 204]) := by
  refine ⟨by decide, by decide, by decide, by decide⟩

/-- C5: for every payload of length 1..20476, the text handed to storage has
exactly `1 + ⌈len*8/15⌉` characters; the first character's code equals the
payload length, every remaining character has bit 15 set and is a 16-bit code
unit carrying 15 payload bits, and the closed-form allocation
`allocWords len = ⌈len/15*8⌉ + 1` equals the serialized stream's length
exactly (its over-allocation relative to the words actually written is zero,
hence at most one trailing word), so no zero-filled trailing capacity is
persisted. -/
theorem claim_C5_wire_format (p : List Nat) (hb : ∀ b ∈ p, b < 256)
    (h1 : 1 ≤ p.length) (h2 : p.length ≤ 20476) :
    (setStream p).length = 1 + (8 * p.length + 14) / 15 ∧
    (setStream p).head? = some p.length ∧
    (∀ w ∈ (setStream p).tail, 32768 ≤ w ∧ w < 65536) ∧
    allocWords p.length = (setStream p).length := by
  obtain ⟨e1, e2, e3⟩ := encWords_spec p hb
  rw [setStream_eq p hb]
  refine ⟨?_, rfl, ?_, ?_⟩
  · simp only [List.length_cons, e1]
    omega
  · intro w hw
    exact e2 w (by simpa using hw)
  · simp only [allocWords, List.length_cons, e1]

theorem claim_C5_wire_format_witness :
    (setStream [66]).length = 1 + (8 * ([66] : List Nat).length + 14) / 15 ∧
    (setStream [66]).head? = some ([66] : List Nat).length ∧
    (∀ w ∈ (setStream [66]).tail, 32768 ≤ w ∧ w < 65536) ∧
    allocWords ([66] : List Nat).length = (setStream [66]).length :=
  claim_C5_wire_format [66] (by decide) (by decide) (by decide)

/-- C6: for every input string (including strings the encoder never
produces), the decoder writes only within the L-byte output buffer, where L is
the declared length read from word 0: every write position is < L, and the
returned buffer has exactly L bytes — bits extracted after the buffer is full
are discarded, never written. -/
theorem claim_C6_decoder_bounds (s : List Nat) :
    (∀ pr ∈ decWrites s, pr.1 < bufLenOf s) ∧ (getBytes s).length = bufLenOf s :=
  ⟨decWrites_lt s, getBytes_length s⟩

theorem claim_C6_decoder_bounds_witness :
    ((0, 56) ∈ decWrites [1, 40000] ∧ (0 : Nat) < bufLenOf [1, 40000]) ∧
      (getBytes [1, 40000]).length = bufLenOf [1, 40000] :=
  ⟨⟨by decide, (claim_C6_decoder_bounds [1, 40000]).1 (0, 56) (by decide)⟩,
    (claim_C6_decoder_bounds [1, 40000]).2⟩

theorem isEmpty_false_of_ne (s : String) (hs : s ≠ "") : s.isEmpty = false := by
  cases h : s.isEmpty with
  | false => rfl
  | true => exact absurd ((String.isEmpty_iff s).mp h) hs

theorem setModel_accepted (s : String) (hse : s.isEmpty = false) (b : BufferArg)
    (hb : acceptedShape b = true) :
    setDynamicBufferModel (.str s) b =
      if (normalizeBuf b).length = 0 ∨ (normalizeBuf b).length > 20476
      then .threw .rangeError
      else .storedText (setStream (normalizeBuf b)) := by
  cases b with
  | undef => simp [acceptedShape] at hb
  | nullArg => simp [acceptedShape] at hb
  | invalid => simp [acceptedShape] at hb
  | numArray xs => simp [setDynamicBufferModel, hse]
  | arrayBuf bytes => simp [setDynamicBufferModel, hse]
  | view u o l => simp [setDynamicBufferModel, hse]

/-- C7: for every valid (non-empty string) identifier and byte source of an
accepted shape, Set throws a RangeError exactly when the normalized payload
length is 0 or greater than 20476 (so length 20477 fails), and succeeds
without error — storing the encoded stream — whenever the length is in
[1, 20476] (so length 20476 succeeds). -/
theorem claim_C7_range_validation (s : String) (hs : s ≠ "") (b : BufferArg)
    (hb : acceptedShape b = true) :
    (setDynamicBufferModel (.str s) b = .threw .rangeError ↔
      ((normalizeBuf b).length = 0 ∨ 20476 < (normalizeBuf b).length)) ∧
    ((normalizeBuf b).length ≠ 0 → (normalizeBuf b).length ≤ 20476 →
      setDynamicBufferModel (.str s) b = .storedText (setStream (normalizeBuf b))) := by
  rw [setModel_accepted s (isEmpty_false_of_ne s hs) b hb]
  constructor
  · constructor
    · intro h
      by_contra hcon
      rw [if_neg hcon] at h
      exact SetOutcome.noConfusion h
    · intro h
      rw [if_pos h]
  · intro h1 h2
    rw [if_neg (by omega)]

theorem claim_C7_range_validation_witness :
    ((setDynamicBufferModel (.str "k") (BufferArg.arrayBuf [7]) = .threw .rangeError ↔
      ((normalizeBuf (BufferArg.arrayBuf [7])).length = 0 ∨
        20476 < (normalizeBuf (BufferArg.arrayBuf [7])).length)) ∧
      ((normalizeBuf (BufferArg.arrayBuf [7])).length ≠ 0 →
        (normalizeBuf (BufferArg.arrayBuf [7])).length ≤ 20476 →
        setDynamicBufferModel (.str "k") (BufferArg.arrayBuf [7]) =
          .storedText (setStream (normalizeBuf (BufferArg.arrayBuf [7]))))) :=
  claim_C7_range_validation "k" (by decide) (BufferArg.arrayBuf [7]) (by decide)

/-- C8: storing an absent payload (Set with an undefined buffer) and then
reading the same key yields the absent sentinel (undefined), never an empty
buffer: Set forwards the absence marker to storage without invoking the
codec, and Get returns the sentinel whenever the loaded value is not text. -/
theorem claim_C8_absence (s : String) (hs : s ≠ "") (prior : StoredVal) :
    getDynamicBufferModel (.str s)
      (storedAfterSet (setDynamicBufferModel (.str s) BufferArg.undef) prior) =
      .loaded none ∧
    setDynamicBufferModel (.str s) BufferArg.undef = .storedNone ∧
    (∀ v : StoredVal, (∀ t, v ≠ .vText t) → getDynamicBufferModel (.str s) v = .loaded none) := by
  have hse := isEmpty_false_of_ne s hs
  refine ⟨?_, ?_, ?_⟩
  · simp [setDynamicBufferModel, getDynamicBufferModel, storedAfterSet, hse]
  · simp [setDynamicBufferModel, hse]
  · intro v hv
    cases v with
    | vText t => exact absurd rfl (hv t)
    | vNone => simp [getDynamicBufferModel, hse]
    | vOther => simp [getDynamicBufferModel, hse]

theorem claim_C8_absence_witness :
    getDynamicBufferModel (.str "k")
      (storedAfterSet (setDynamicBufferModel (.str "k") BufferArg.undef) StoredVal.vOther) =
      .loaded none :=
  (claim_C8_absence "k" (by decide) StoredVal.vOther).1

/-- C9: for every invalid identifier — a non-string value or the empty string
— both Set and Get throw a TypeError synchronously, before the codec runs and
before any storage-adapter call: the outcome is the thrown error, so nothing
is stored and no load occurs. -/
theorem claim_C9_ident_validation (ident : JSIdent) (h : badIdent ident = true)
    (buffer : BufferArg) (stored : StoredVal) :
    setDynamicBufferModel ident buffer = .threw .typeError ∧
    getDynamicBufferModel ident stored = .threw .typeError := by
  cases ident with
  | other => exact ⟨rfl, rfl⟩
  | str s =>
    have hse : s.isEmpty = true := by simpa [badIdent] using h
    constructor
    · simp [setDynamicBufferModel, hse]
    · simp [getDynamicBufferModel, hse]

theorem claim_C9_ident_validation_witness :
    setDynamicBufferModel (.str "") BufferArg.undef = .threw .typeError ∧
    getDynamicBufferModel (.str "") StoredVal.vNone = .threw .typeError :=
  claim_C9_ident_validation (.str "") (by decide) BufferArg.undef StoredVal.vNone

/-- C10: if storage holds the empty text string for a key (a value the encoder
never produces), Get returns a zero-length buffer — not the absent sentinel
and not an error — so a caller can receive an empty buffer even though every
successfully encoded payload has length at least 1. -/
theorem claim_C10_empty_string (s : String) (hs : s ≠ "") :
    getDynamicBufferModel (.str s) (.vText []) = .loaded (some []) := by
  have hse := isEmpty_false_of_ne s hs
  simp [getDynamicBufferModel, hse]
  rfl

theorem claim_C10_empty_string_witness :
    getDynamicBufferModel (.str "k") (.vText []) = .loaded (some []) :=
  claim_C10_empty_string "k" (by decide)
